import Mathlib

set_option maxRecDepth 8000

/-!
Shallow embedding of the QRNG-App repository core: the quantum batching
wrapper (qrng.py), the classical bit source (classical_rng.py), and the
statistics / encoding helpers (app.py).  Bitstrings are modelled as
`List Char` over the characters '0' and '1'; Python byte sequences as
`List Nat` with entries below 256; Python floats as real numbers.
-/

namespace Qrng

/-- Python prefix slice s[:n] for an arbitrary integer n (negative n counts
from the end, clipped at zero). -/
def pyTakeTo (n : Int) (s : List Char) : List Char :=
  if n < 0 then s.take ((s.length + n).toNat) else s.take n.toNat

/-- Batching loop of generate_random_bits in qrng.py.  The external
simulator is modelled as an oracle: call number k on a circuit of c qubits
yields the measured bitstring sim k c (the single-shot counts key).  Each
chunk is reversed before being appended, matching bitstring[::-1] in the
source. -/
def genLoop (sim : Nat → Nat → List Char) (k : Nat) (remaining : Int) : List Char :=
  if 0 < remaining then
    let chunk : Int := min 24 remaining
    (sim k chunk.toNat).reverse ++ genLoop sim (k + 1) (remaining - chunk)
  else []
termination_by remaining.toNat
decreasing_by omega

/-- Model of qrng.generate_random_bits: run the batching loop and truncate
the concatenation with the Python slice [:n_bits]. -/
def generate_random_bits (sim : Nat → Nat → List Char) (n_bits : Int) : List Char :=
  pyTakeTo n_bits (genLoop sim 0 n_bits)

/-- Batching loop with a fallible simulator: a raising backend is modelled
by the Except monad, so a failing batch short-circuits the whole loop,
exactly as an uncaught Python exception would. -/
def genLoopE (sim : Nat → Nat → Except String (List Char)) (k : Nat) (remaining : Int) :
    Except String (List Char) :=
  if 0 < remaining then
    let chunk : Int := min 24 remaining
    match sim k chunk.toNat with
    | .error e => .error e
    | .ok s =>
      match genLoopE sim (k + 1) (remaining - chunk) with
      | .error e => .error e
      | .ok rest => .ok (s.reverse ++ rest)
  else .ok []
termination_by remaining.toNat
decreasing_by omega

/-- Model of qrng.generate_random_bits with a fallible simulator. -/
def generateE (sim : Nat → Nat → Except String (List Char)) (n_bits : Int) :
    Except String (List Char) :=
  (genLoopE sim 0 n_bits).map (pyTakeTo n_bits)

end Qrng

namespace ClassicalRng

/-- Binary digits of a natural number, most significant first; empty for 0.
Helper for the Python format(r, "0{n}b") conversion. -/
def binRep (n : Nat) : List Char :=
  if n = 0 then []
  else binRep (n / 2) ++ [if n % 2 = 1 then '1' else '0']
termination_by n
decreasing_by omega

/-- Python format(r, binary format spec of width w): the binary digits of r
(at least the single digit 0), zero-padded on the left to width w.  Values
wider than w are not truncated. -/
def pyFormatBin (r width : Nat) : List Char :=
  let s := if r = 0 then ['0'] else binRep r
  List.replicate (width - s.length) '0' ++ s

/-- Model of classical_rng.generate_random_bits: r stands for the value
returned by secrets.randbits(n_bits), which satisfies r less than
2 ^ n_bits. -/
def generate_random_bits (r n_bits : Nat) : List Char :=
  pyFormatBin r n_bits

end ClassicalRng

namespace App

/-- Model of app.frequency_test: counts of the two symbols. -/
def frequency_test (bits : List Char) : Nat × Nat :=
  (bits.count '0', bits.count '1')

/-- Loop of app.runs_test: scanning from the second character, add one for
every position whose character differs from its predecessor. -/
def runsLoop : Char → List Char → Nat
  | _, [] => 0
  | prev, c :: rest => (if c ≠ prev then 1 else 0) + runsLoop c rest

/-- Model of app.runs_test: 0 and 0.0 on the empty string, otherwise the
run counter started at 1 together with the expected value (2 n - 1) / 3.
The Python float is modelled exactly as a rational. -/
def runs_test (bits : List Char) : Nat × ℚ :=
  match bits with
  | [] => (0, 0)
  | c :: rest => (1 + runsLoop c rest, (2 * ((c :: rest).length : ℚ) - 1) / 3)

/-- Model of app.entropy: 0.0 on the empty string, otherwise fold over the
two counts, subtracting p * log2 p for each nonzero count. -/
noncomputable def entropy (bits : List Char) : ℝ :=
  if bits = [] then 0
  else
    let c0 := bits.count '0'
    let c1 := bits.count '1'
    let total := bits.length
    [c0, c1].foldl
      (fun out c =>
        if c ≠ 0 then out - ((c : ℝ) / (total : ℝ)) * Real.logb 2 ((c : ℝ) / (total : ℝ))
        else out) 0

/-- Model of app.chi_square_01.  The p-value computation lives in scipy
(chi-square survival function with one degree of freedom); it is an
external dependency and is abstracted as the parameter sf. -/
noncomputable def chi_square_01 (sf : ℝ → ℝ) (bits : List Char) : ℝ × ℝ :=
  let zeros := (frequency_test bits).1
  let ones := (frequency_test bits).2
  let total := bits.length
  if total = 0 then (0, 1)
  else
    let e : ℝ := (total : ℝ) / 2
    let chi2 := ((zeros : ℝ) - e) ^ 2 / e + ((ones : ℝ) - e) ^ 2 / e
    (chi2, sf chi2)

/-- Python int(bits, 2) on a binary string: big-endian binary value. -/
def bitsToNat (bits : List Char) : Nat :=
  bits.foldl (fun a c => 2 * a + (if c = '1' then 1 else 0)) 0

/-- Python v.to_bytes(k, "big"): the k-byte big-endian encoding of v. -/
def natToBytesBE (v : Nat) : Nat → List Nat
  | 0 => []
  | k + 1 => (v / 256 ^ k % 256) :: natToBytesBE v k

/-- Python int.from_bytes(bs, "big"). -/
def bytesToNat (l : List Nat) : Nat :=
  l.foldl (fun a b => 256 * a + b) 0

/-- Model of app.bits_to_bytes: empty bytes for the empty string, otherwise
the value of the bitstring encoded big-endian in ceil(len / 8) bytes. -/
def bits_to_bytes (bits : List Char) : List Nat :=
  if bits = [] then []
  else natToBytesBE (bitsToNat bits) ((bits.length + 7) / 8)

/-- Lowercase hexadecimal digit for a nibble value. -/
def hexChar (n : Nat) : Char :=
  if n < 10 then Char.ofNat (48 + n) else Char.ofNat (87 + n)

/-- Hexadecimal rendering of a byte sequence, two digits per byte, high
nibble first. -/
def bytesToHex (l : List Nat) : List Char :=
  l.foldr (fun b acc => hexChar (b / 16) :: hexChar (b % 16) :: acc) []

/-- UUID derivation step of app.py: bb[6] = (bb[6] & 0x0F) | 0x40 and
bb[8] = (bb[8] & 0x3F) | 0x80 on the bytearray. -/
def setUuidVersionVariant (l : List Nat) : List Nat :=
  let l1 := l.set 6 ((Nat.land (l.getD 6 0) 15).lor 64)
  l1.set 8 ((Nat.land (l1.getD 8 0) 63).lor 128)

/-- Hex digits (32 of them for a 16-byte input) of the UUID built by
uuid.UUID(bytes=...) from the version-and-variant-adjusted first 16 bytes. -/
def uuidHex (l : List Nat) : List Char :=
  bytesToHex (setUuidVersionVariant (l.take 16))

/-- Canonical string of the UUID: the 32 hex digits in 8-4-4-4-12 groups
separated by dashes. -/
def uuidStr (l : List Nat) : List Char :=
  let h := uuidHex l
  h.take 8 ++ ('-' :: ((h.drop 8).take 4 ++ ('-' :: ((h.drop 12).take 4
    ++ ('-' :: ((h.drop 16).take 4 ++ ('-' :: h.drop 20)))))))

end App

namespace SpecSide

/-- Number of adjacent unequal pairs of a string, the quantity the claim
about runs counting refers to. -/
def adjDiff : List Char → Nat
  | a :: b :: rest => (if a ≠ b then 1 else 0) + adjDiff (b :: rest)
  | _ => 0

/-- Number of maximal runs of identical consecutive symbols, by repeatedly
stripping the leading maximal run. -/
def runCount (l : List Char) : Nat :=
  match l with
  | [] => 0
  | c :: rest => 1 + runCount (rest.dropWhile (fun d => d == c))
termination_by l.length
decreasing_by
  have h := (List.dropWhile_sublist (l := rest) (fun d => d == c)).length_le
  simp only [List.length_cons]
  omega

/-- Shannon summand with the 0 * log 0 = 0 convention. -/
noncomputable def negPlogP (p : ℝ) : ℝ :=
  if p = 0 then 0 else -(p * Real.logb 2 p)

end SpecSide

section QrngProofs

open Qrng

lemma genLoop_length (sim : Nat → Nat → List Char)
    (hsim : ∀ k c, (sim k c).length = c) :
    ∀ (m k : Nat) (r : Int), r.toNat ≤ m → (genLoop sim k r).length = r.toNat := by
  intro m
  induction m with
  | zero =>
    intro k r hr
    rw [genLoop]
    have hneg : ¬ 0 < r := by omega
    simp only [hneg, if_neg, not_false_iff, List.length_nil]
    omega
  | succ m ih =>
    intro k r hr
    rw [genLoop]
    by_cases h : 0 < r
    · simp only [h, if_pos]
      have hrec := ih (k + 1) (r - min 24 r) (by omega)
      simp only [List.length_append, List.length_reverse, hsim, hrec]
      omega
    · simp only [h, if_neg, not_false_iff, List.length_nil]
      omega

lemma pyTakeTo_length_of_nonneg (n : Int) (hn : 0 ≤ n) (s : List Char)
    (hs : n.toNat ≤ s.length) : (pyTakeTo n s).length = n.toNat := by
  unfold pyTakeTo
  have h : ¬ n < 0 := by omega
  simp only [h, if_neg, not_false_iff, List.length_take]
  omega

lemma genLoop_nonpos (sim : Nat → Nat → List Char) (k : Nat) (n : Int) (hn : n ≤ 0) :
    genLoop sim k n = [] := by
  rw [genLoop]
  have h : ¬ 0 < n := by omega
  simp only [h, if_neg, not_false_iff]

end QrngProofs

/-- C1: QuantumSource.generate batches work into chunks of min(24, remaining)
qubits, reverses each single-shot outcome, concatenates and truncates to the
requested length; modelling each simulator call as returning one
chunk-length bitstring, the result has length exactly n for every n not
below 0. -/
theorem qrng_generate_length (sim : Nat → Nat → List Char) (n : Int)
    (hn : 0 ≤ n) (hsim : ∀ k c, (sim k c).length = c) :
    (Qrng.generate_random_bits sim n).length = n.toNat := by
  unfold Qrng.generate_random_bits
  have hloop := genLoop_length sim hsim n.toNat 0 n le_rfl
  exact pyTakeTo_length_of_nonneg n hn _ (by omega)

/-- C1 witness: a concrete 30-bit generation (two batches) has length 30. -/
theorem qrng_generate_length_witness :
    (0 : Int) ≤ 30 ∧
      (Qrng.generate_random_bits (fun _ c => List.replicate c '0') 30).length =
        (30 : Int).toNat :=
  ⟨by decide,
    qrng_generate_length (fun _ c => List.replicate c '0') 30 (by decide)
      (fun k c => by simp)⟩

/-- C10: for every non-positive requested length the batching loop body
never executes, so QuantumSource.generate returns the empty string (for any
simulator) instead of raising an invalid-input error. -/
theorem qrng_generate_nonpos (sim : Nat → Nat → List Char) (n : Int) (hn : n ≤ 0) :
    Qrng.generate_random_bits sim n = [] ∧ Qrng.genLoop sim 0 n = [] := by
  have hloop := genLoop_nonpos sim 0 n hn
  refine ⟨?_, hloop⟩
  unfold Qrng.generate_random_bits
  rw [hloop]
  unfold Qrng.pyTakeTo
  by_cases h : n < 0 <;> simp [h]

/-- C10 witness: requesting minus three bits yields the empty string and an
unexecuted loop. -/
theorem qrng_generate_nonpos_witness :
    (-3 : Int) ≤ 0 ∧
      (Qrng.generate_random_bits (fun _ c => List.replicate c '0') (-3) = [] ∧
        Qrng.genLoop (fun _ c => List.replicate c '0') 0 (-3) = []) :=
  ⟨by decide, qrng_generate_nonpos (fun _ c => List.replicate c '0') (-3) (by decide)⟩

section QrngExceptProofs

open Qrng

lemma genLoopE_ok_length (sim : Nat → Nat → Except String (List Char))
    (hlen : ∀ k c s, sim k c = .ok s → s.length = c) :
    ∀ (m k : Nat) (r : Int), r.toNat ≤ m →
      ∀ s, genLoopE sim k r = .ok s → s.length = r.toNat := by
  intro m
  induction m with
  | zero =>
    intro k r hr s hs
    rw [genLoopE] at hs
    have hneg : ¬ 0 < r := by omega
    simp only [hneg, if_neg, not_false_iff] at hs
    cases hs
    simp
    omega
  | succ m ih =>
    intro k r hr s hs
    rw [genLoopE] at hs
    by_cases h : 0 < r
    · simp only [h, if_pos] at hs
      cases hsim : sim k (min 24 r).toNat with
      | error e => rw [hsim] at hs; cases hs
      | ok s1 =>
        rw [hsim] at hs
        cases hrec : genLoopE sim (k + 1) (r - min 24 r) with
        | error e => rw [hrec] at hs; cases hs
        | ok rest =>
          rw [hrec] at hs
          cases hs
          have h1 := hlen k (min 24 r).toNat s1 hsim
          have h2 := ih (k + 1) (r - min 24 r) (by omega) rest hrec
          simp only [List.length_append, List.length_reverse, h1, h2]
          omega
    · simp only [h, if_neg, not_false_iff] at hs
      cases hs
      simp
      omega

lemma genLoopE_total_ok (sim : Nat → Nat → Except String (List Char))
    (hok : ∀ k c, ∃ s, sim k c = .ok s) :
    ∀ (m k : Nat) (r : Int), r.toNat ≤ m → ∃ s, genLoopE sim k r = .ok s := by
  intro m
  induction m with
  | zero =>
    intro k r hr
    rw [genLoopE]
    have hneg : ¬ 0 < r := by omega
    simp only [hneg, if_neg, not_false_iff]
    exact ⟨[], rfl⟩
  | succ m ih =>
    intro k r hr
    rw [genLoopE]
    by_cases h : 0 < r
    · simp only [h, if_pos]
      obtain ⟨s1, hs1⟩ := hok k (min 24 r).toNat
      obtain ⟨rest, hrest⟩ := ih (k + 1) (r - min 24 r) (by omega)
      rw [hs1, hrest]
      exact ⟨s1.reverse ++ rest, rfl⟩
    · simp only [h, if_neg, not_false_iff]
      exact ⟨[], rfl⟩

lemma genLoopE_error_from_sim (sim : Nat → Nat → Except String (List Char)) :
    ∀ (m k : Nat) (r : Int), r.toNat ≤ m →
      ∀ e, genLoopE sim k r = .error e → ∃ k' c, sim k' c = .error e := by
  intro m
  induction m with
  | zero =>
    intro k r hr e he
    rw [genLoopE] at he
    have hneg : ¬ 0 < r := by omega
    simp only [hneg, if_neg, not_false_iff] at he
    cases he
  | succ m ih =>
    intro k r hr e he
    rw [genLoopE] at he
    by_cases h : 0 < r
    · simp only [h, if_pos] at he
      cases hsim : sim k (min 24 r).toNat with
      | error e1 =>
        rw [hsim] at he
        cases he
        exact ⟨k, (min 24 r).toNat, hsim⟩
      | ok s1 =>
        rw [hsim] at he
        cases hrec : genLoopE sim (k + 1) (r - min 24 r) with
        | error e1 =>
          rw [hrec] at he
          cases he
          exact ih (k + 1) (r - min 24 r) (by omega) _ hrec
        | ok rest => rw [hrec] at he; cases he
    · simp only [h, if_neg, not_false_iff] at he
      cases he

end QrngExceptProofs

/-- C9: quantum generation is all-or-nothing: with a fallible simulator
whose successful batches return chunk-length bitstrings, a failed batch
short-circuits generation to that failure (every propagated error is one
returned by a simulator invocation, and no partial bitstring is ever
returned as a success), while if every invocation succeeds the call returns
a full bitstring of the requested length. -/
theorem qrng_generateE_all_or_nothing (sim : Nat → Nat → Except String (List Char))
    (n : Int) (hn : 0 ≤ n)
    (hlen : ∀ k c s, sim k c = Except.ok s → s.length = c) :
    ((∀ k c, ∃ s, sim k c = Except.ok s) →
        ∃ s, Qrng.generateE sim n = Except.ok s ∧ s.length = n.toNat) ∧
    (∀ s, Qrng.generateE sim n = Except.ok s → s.length = n.toNat) ∧
    (∀ e, Qrng.generateE sim n = Except.error e → ∃ k c, sim k c = Except.error e) := by
  refine ⟨?_, ?_, ?_⟩
  · intro hok
    obtain ⟨s, hs⟩ := genLoopE_total_ok sim hok n.toNat 0 n le_rfl
    have hslen := genLoopE_ok_length sim hlen n.toNat 0 n le_rfl s hs
    refine ⟨Qrng.pyTakeTo n s, ?_, ?_⟩
    · unfold Qrng.generateE
      rw [hs]
      rfl
    · exact pyTakeTo_length_of_nonneg n hn s (by omega)
  · intro s hs
    unfold Qrng.generateE at hs
    cases hloop : Qrng.genLoopE sim 0 n with
    | error e => rw [hloop] at hs; cases hs
    | ok s0 =>
      rw [hloop] at hs
      have hs0 := genLoopE_ok_length sim hlen n.toNat 0 n le_rfl s0 hloop
      cases hs
      exact pyTakeTo_length_of_nonneg n hn s0 (by omega)
  · intro e he
    unfold Qrng.generateE at he
    cases hloop : Qrng.genLoopE sim 0 n with
    | error e0 =>
      rw [hloop] at he
      cases he
      exact genLoopE_error_from_sim sim n.toNat 0 n le_rfl e hloop
    | ok s0 => rw [hloop] at he; cases he

/-- C9 witness: with an always-succeeding simulator a five-bit generation
returns a full five-character success. -/
theorem qrng_generateE_witness :
    (0 : Int) ≤ 5 ∧
      ∃ s, Qrng.generateE (fun _ c => Except.ok (List.replicate c '1')) 5 = Except.ok s ∧
        s.length = (5 : Int).toNat :=
  ⟨by decide,
    (qrng_generateE_all_or_nothing (fun _ c => Except.ok (List.replicate c '1')) 5 (by decide)
        (fun k c s h => by cases h; simp)).1
      (fun k c => ⟨List.replicate c '1', rfl⟩)⟩

section ClassicalProofs

open ClassicalRng

lemma binRep_length_le : ∀ (n : Nat), ∀ (k : Nat), n < 2 ^ k → (binRep n).length ≤ k := by
  intro n
  induction n using Nat.strong_induction_on with
  | _ n ih =>
    intro k hk
    rw [binRep]
    by_cases h : n = 0
    · simp [h]
    · simp only [h, if_neg, not_false_iff, List.length_append, List.length_singleton]
      cases k with
      | zero =>
        simp only [pow_zero] at hk
        omega
      | succ k =>
        have h2 : n < 2 * 2 ^ k := by rw [pow_succ] at hk; omega
        have h3 : n / 2 < 2 ^ k := by omega
        have := ih (n / 2) (by omega) k h3
        omega

lemma binRep_mem : ∀ (n : Nat), ∀ c ∈ binRep n, c = '0' ∨ c = '1' := by
  intro n
  induction n using Nat.strong_induction_on with
  | _ n ih =>
    intro c hc
    rw [binRep] at hc
    by_cases h : n = 0
    · simp [h] at hc
    · simp only [h, if_neg, not_false_iff, List.mem_append, List.mem_singleton] at hc
      rcases hc with hc | hc
      · exact ih (n / 2) (by omega) c hc
      · by_cases hm : n % 2 = 1 <;> simp [hm] at hc <;> simp [hc]

end ClassicalProofs

/-- C2 counterexample: at the concrete input n = 0 (where secrets.randbits
necessarily returns 0) ClassicalSource.generate returns the one-character
string consisting of the digit 0, so its length is not 0 as the claim, as
stated for every n not below 0, requires. -/
theorem classical_generate_zero_counterexample :
    ¬ (ClassicalRng.generate_random_bits 0 0).length = 0 := by decide

/-- C2 amended: for every n not below 1 and every random value r below
2 ^ n, ClassicalSource.generate returns a string of length exactly n whose
characters are all the digit 0 or the digit 1, the value being zero-padded
on the left so a short random value never shrinks the string. -/
theorem classical_generate_length (r n : Nat) (hn : 1 ≤ n) (hr : r < 2 ^ n) :
    (ClassicalRng.generate_random_bits r n).length = n ∧
      ∀ c ∈ ClassicalRng.generate_random_bits r n, c = '0' ∨ c = '1' := by
  unfold ClassicalRng.generate_random_bits ClassicalRng.pyFormatBin
  by_cases h : r = 0
  · subst h
    constructor
    · simp only [if_pos, List.length_append, List.length_replicate, List.length_singleton]
      omega
    · intro c hc
      simp only [if_pos, List.mem_append, List.mem_replicate, List.mem_singleton] at hc
      rcases hc with ⟨_, hc⟩ | hc <;> simp [hc]
  · have hlen := binRep_length_le r n hr
    constructor
    · simp only [h, if_neg, not_false_iff, List.length_append, List.length_replicate]
      omega
    · intro c hc
      simp only [h, if_neg, not_false_iff, List.mem_append, List.mem_replicate] at hc
      rcases hc with ⟨_, hc⟩ | hc
      · exact Or.inl hc
      · exact binRep_mem r c hc

/-- C2 amended witness: a concrete 4-bit value rendered at width 4. -/
theorem classical_generate_length_witness :
    1 ≤ 4 ∧ 5 < 2 ^ 4 ∧
      ((ClassicalRng.generate_random_bits 5 4).length = 4 ∧
        ∀ c ∈ ClassicalRng.generate_random_bits 5 4, c = '0' ∨ c = '1') :=
  ⟨by decide, by decide, classical_generate_length 5 4 (by decide) (by decide)⟩

section PackProofs

open App

lemma bitsToNat_foldl_lt : ∀ (l : List Char) (a : Nat),
    List.foldl (fun a c => 2 * a + (if c = '1' then 1 else 0)) a l < (a + 1) * 2 ^ l.length := by
  intro l
  induction l with
  | nil => intro a; simp
  | cons c t ih =>
    intro a
    have hb : (if c = '1' then 1 else 0) ≤ 1 := by split <;> omega
    have h1 := ih (2 * a + (if c = '1' then 1 else 0))
    have h2 : (2 * a + (if c = '1' then 1 else 0) + 1) * 2 ^ t.length ≤
        (a + 1) * 2 ^ (t.length + 1) := by
      rw [pow_succ]
      have : 2 * a + (if c = '1' then 1 else 0) + 1 ≤ (a + 1) * 2 := by omega
      calc (2 * a + (if c = '1' then 1 else 0) + 1) * 2 ^ t.length
          ≤ (a + 1) * 2 * 2 ^ t.length := Nat.mul_le_mul_right _ this
        _ = (a + 1) * (2 ^ t.length * 2) := by ring
    simp only [List.foldl_cons, List.length_cons]
    omega

lemma bitsToNat_lt (bits : List Char) : bitsToNat bits < 2 ^ bits.length := by
  have := bitsToNat_foldl_lt bits 0
  simpa [bitsToNat] using this

lemma natToBytesBE_foldl : ∀ (k a v : Nat),
    List.foldl (fun x b => 256 * x + b) a (natToBytesBE v k) = a * 256 ^ k + v % 256 ^ k := by
  intro k
  induction k with
  | zero => intro a v; simp [natToBytesBE, Nat.mod_one]
  | succ k ih =>
    intro a v
    have hmod : v % 256 ^ (k + 1) = v % 256 ^ k + 256 ^ k * (v / 256 ^ k % 256) := by
      rw [pow_succ, Nat.mod_mul]
    simp only [natToBytesBE, List.foldl_cons, ih]
    rw [hmod, pow_succ]
    ring

lemma natToBytesBE_length (v k : Nat) : (natToBytesBE v k).length = k := by
  induction k with
  | zero => simp [natToBytesBE]
  | succ k ih => simp [natToBytesBE, ih]

lemma natToBytesBE_mem_lt (v : Nat) : ∀ (k : Nat), ∀ b ∈ natToBytesBE v k, b < 256 := by
  intro k
  induction k with
  | zero => simp [natToBytesBE]
  | succ k ih =>
    intro b hb
    simp only [natToBytesBE, List.mem_cons] at hb
    rcases hb with hb | hb
    · subst hb
      exact Nat.mod_lt _ (by omega)
    · exact ih b hb

lemma bytesToNat_natToBytesBE (v k : Nat) (h : v < 256 ^ k) :
    bytesToNat (natToBytesBE v k) = v := by
  unfold bytesToNat
  rw [natToBytesBE_foldl]
  simp [Nat.mod_eq_of_lt h]

lemma two_pow_le_byte_pow (L : Nat) : 2 ^ L ≤ 256 ^ ((L + 7) / 8) := by
  have h1 : L ≤ 8 * ((L + 7) / 8) := by omega
  calc 2 ^ L ≤ 2 ^ (8 * ((L + 7) / 8)) := Nat.pow_le_pow_right (by omega) h1
    _ = (2 ^ 8) ^ ((L + 7) / 8) := by rw [← pow_mul]
    _ = 256 ^ ((L + 7) / 8) := by norm_num

lemma bits_to_bytes_spec (bits : List Char) :
    (bits_to_bytes bits).length = (bits.length + 7) / 8 ∧
      bytesToNat (bits_to_bytes bits) = bitsToNat bits ∧
      ∀ b ∈ bits_to_bytes bits, b < 256 := by
  by_cases h : bits = []
  · subst h
    refine ⟨by simp [bits_to_bytes], by simp [bits_to_bytes, bytesToNat, bitsToNat], ?_⟩
    simp [bits_to_bytes]
  · have hval : bitsToNat bits < 256 ^ ((bits.length + 7) / 8) :=
      lt_of_lt_of_le (bitsToNat_lt bits) (two_pow_le_byte_pow bits.length)
    unfold bits_to_bytes
    simp only [h, if_neg, not_false_iff]
    exact ⟨natToBytesBE_length _ _, bytesToNat_natToBytesBE _ _ hval,
      natToBytesBE_mem_lt _ _⟩

end PackProofs

/-- C3: pack maps the empty bitstring to the empty byte sequence and every
bitstring to the big-endian byte encoding of its binary value in exactly
ceil(len / 8) bytes (each byte below 256, and the bytes read back
big-endian give exactly the value of the bitstring); in particular the
bitstring 1 packs to the byte 1, eight ones pack to the byte 255, and a one
followed by eight zeros packs to the bytes 1 and 0. -/
theorem bits_to_bytes_pack (bits : List Char) :
    (App.bits_to_bytes bits).length = (bits.length + 7) / 8 ∧
      App.bytesToNat (App.bits_to_bytes bits) = App.bitsToNat bits ∧
      (∀ b ∈ App.bits_to_bytes bits, b < 256) ∧
      App.bits_to_bytes [] = [] ∧
      App.bits_to_bytes ['1'] = [1] ∧
      App.bits_to_bytes ['1', '1', '1', '1', '1', '1', '1', '1'] = [255] ∧
      App.bits_to_bytes ['1', '0', '0', '0', '0', '0', '0', '0', '0'] = [1, 0] := by
  obtain ⟨h1, h2, h3⟩ := bits_to_bytes_spec bits
  exact ⟨h1, h2, h3, by decide, by decide, by decide, by decide⟩

/-- C8: for every bitstring whose length is a multiple of eight, the
integer conversion int(bits, 2) agrees with reading the packed bytes back
as a big-endian integer. -/
theorem toInt_pack_round_trip (bits : List Char) (_hm : bits.length % 8 = 0) :
    App.bitsToNat bits = App.bytesToNat (App.bits_to_bytes bits) :=
  ((bits_to_bytes_spec bits).2.1).symm

/-- C8 witness: a concrete eight-bit string round-trips. -/
theorem toInt_pack_round_trip_witness :
    (['1', '0', '1', '0', '1', '0', '1', '0'] : List Char).length % 8 = 0 ∧
      App.bitsToNat ['1', '0', '1', '0', '1', '0', '1', '0'] =
        App.bytesToNat (App.bits_to_bytes ['1', '0', '1', '0', '1', '0', '1', '0']) :=
  ⟨by decide, toInt_pack_round_trip ['1', '0', '1', '0', '1', '0', '1', '0'] (by decide)⟩

section RunsProofs

open App SpecSide

lemma runsLoop_eq_adjDiff : ∀ (rest : List Char) (c : Char),
    runsLoop c rest = adjDiff (c :: rest) := by
  intro rest
  induction rest with
  | nil => intro c; rfl
  | cons d t ih =>
    intro c
    simp only [runsLoop, adjDiff, ih d]
    congr 1
    by_cases h : d = c
    · subst h; simp
    · have h2 : c ≠ d := fun hh => h hh.symm
      simp [h, h2]

lemma runCount_nil : runCount [] = 0 := by
  rw [runCount.eq_def]

lemma runCount_cons (c : Char) (rest : List Char) :
    runCount (c :: rest) = 1 + runCount (rest.dropWhile (fun d => d == c)) := by
  rw [runCount.eq_def]

lemma one_add_runsLoop_eq_runCount : ∀ (rest : List Char) (c : Char),
    1 + runsLoop c rest = runCount (c :: rest) := by
  intro rest
  induction rest with
  | nil =>
    intro c
    rw [runCount_cons]
    simp [runsLoop, List.dropWhile_nil, runCount_nil]
  | cons d t ih =>
    intro c
    by_cases h : d = c
    · subst h
      rw [runCount_cons, List.dropWhile_cons_of_pos (by simp)]
      have hd := ih d
      rw [runCount_cons] at hd
      simp only [runsLoop, ne_eq, not_true_eq_false, if_false]
      omega
    · rw [runCount_cons, List.dropWhile_cons_of_neg (by simp [h])]
      rw [← ih d]
      simp [runsLoop, h]

end RunsProofs

/-- C5: runsCount returns 0 and 0.0 on the empty string; on every non-empty
string the observed count is 1 plus the number of adjacent unequal pairs,
which equals the number of maximal runs of identical consecutive symbols,
and the expected count is (2 n - 1) / 3; in particular three zeros followed
by three ones give 2 observed runs and expected 11 / 3. -/
theorem runs_test_spec (bits : List Char) (h : bits ≠ []) :
    (App.runs_test bits).1 = 1 + SpecSide.adjDiff bits ∧
      (App.runs_test bits).1 = SpecSide.runCount bits ∧
      (App.runs_test bits).2 = (2 * (bits.length : ℚ) - 1) / 3 ∧
      App.runs_test [] = (0, 0) ∧
      App.runs_test ['0', '0', '0', '1', '1', '1'] = (2, 11 / 3) := by
  cases bits with
  | nil => exact absurd rfl h
  | cons c rest =>
    refine ⟨?_, ?_, rfl, rfl, ?_⟩
    · simp only [App.runs_test]
      rw [runsLoop_eq_adjDiff]
    · simp only [App.runs_test]
      rw [one_add_runsLoop_eq_runCount]
    · have h1 : (App.runs_test ['0', '0', '0', '1', '1', '1']).1 = 2 := by decide
      have h2 : (App.runs_test ['0', '0', '0', '1', '1', '1']).2 = 11 / 3 := by
        simp [App.runs_test]
        norm_num
      exact Prod.ext h1 h2

/-- C5 witness: the maximal-run characterizations instantiated on the
six-character example. -/
theorem runs_test_spec_witness :
    (['0', '0', '0', '1', '1', '1'] : List Char) ≠ [] ∧
      ((App.runs_test ['0', '0', '0', '1', '1', '1']).1 =
          1 + SpecSide.adjDiff ['0', '0', '0', '1', '1', '1'] ∧
        (App.runs_test ['0', '0', '0', '1', '1', '1']).1 =
          SpecSide.runCount ['0', '0', '0', '1', '1', '1'] ∧
        (App.runs_test ['0', '0', '0', '1', '1', '1']).2 =
          (2 * ((['0', '0', '0', '1', '1', '1'] : List Char).length : ℚ) - 1) / 3 ∧
        App.runs_test [] = (0, 0) ∧
        App.runs_test ['0', '0', '0', '1', '1', '1'] = (2, 11 / 3)) :=
  ⟨by decide, runs_test_spec ['0', '0', '0', '1', '1', '1'] (by decide)⟩

section EntropyProofs

open App SpecSide

lemma entropy_nonempty (bits : List Char) (h : bits ≠ []) :
    entropy bits =
      negPlogP ((bits.count '0' : ℝ) / (bits.length : ℝ)) +
        negPlogP ((bits.count '1' : ℝ) / (bits.length : ℝ)) := by
  have hlen : bits.length ≠ 0 := by
    cases bits with
    | nil => exact absurd rfl h
    | cons c rest => simp
  have htot : (bits.length : ℝ) ≠ 0 := by exact_mod_cast hlen
  unfold entropy negPlogP
  simp only [h, if_neg, not_false_iff, List.foldl]
  by_cases h0 : bits.count '0' = 0 <;> by_cases h1 : bits.count '1' = 0 <;>
    simp [h0, h1, div_eq_zero_iff, htot] <;> ring

end EntropyProofs

/-- C6: entropy returns 0.0 on the empty string and on every non-empty
string the Shannon entropy of the empirical distribution of the two
symbols, each nonzero-count symbol contributing minus p log2 p; in
particular four zeros give entropy 0 and an alternating four-character
string gives entropy 1. -/
theorem entropy_shannon (bits : List Char) (h : bits ≠ []) :
    App.entropy bits =
        SpecSide.negPlogP ((bits.count '0' : ℝ) / (bits.length : ℝ)) +
          SpecSide.negPlogP ((bits.count '1' : ℝ) / (bits.length : ℝ)) ∧
      App.entropy [] = 0 ∧
      App.entropy ['0', '0', '0', '0'] = 0 ∧
      App.entropy ['0', '1', '0', '1'] = 1 := by
  refine ⟨entropy_nonempty bits h, by simp [App.entropy], ?_, ?_⟩
  · have hc0 : (['0', '0', '0', '0'] : List Char).count '0' = 4 := by decide
    have hc1 : (['0', '0', '0', '0'] : List Char).count '1' = 0 := by decide
    rw [entropy_nonempty _ (by decide), hc0, hc1]
    have h4 : ((['0', '0', '0', '0'] : List Char).length : ℝ) = 4 := by simp
    rw [h4]
    have hone : ((4 : ℝ) / 4) = 1 := by norm_num
    simp [SpecSide.negPlogP, hone, Real.logb_one]
  · have hc0 : (['0', '1', '0', '1'] : List Char).count '0' = 2 := by decide
    have hc1 : (['0', '1', '0', '1'] : List Char).count '1' = 2 := by decide
    rw [entropy_nonempty _ (by decide), hc0, hc1]
    have h4 : ((['0', '1', '0', '1'] : List Char).length : ℝ) = 4 := by simp
    rw [h4]
    have hl : Real.logb 2 ((2 : ℝ) / 4) = -1 := by
      have hhalf : ((2 : ℝ) / 4) = (2 : ℝ)⁻¹ := by norm_num
      rw [hhalf, Real.logb_inv, Real.logb_self_eq_one (by norm_num)]
    simp only [SpecSide.negPlogP]
    rw [if_neg (by norm_num)]
    push_cast
    rw [hl]
    norm_num

/-- C6 witness: the Shannon characterization instantiated on the
alternating four-character string. -/
theorem entropy_shannon_witness :
    (['0', '1', '0', '1'] : List Char) ≠ [] ∧
      (App.entropy ['0', '1', '0', '1'] =
          SpecSide.negPlogP (((['0', '1', '0', '1'] : List Char).count '0' : ℝ) /
              ((['0', '1', '0', '1'] : List Char).length : ℝ)) +
            SpecSide.negPlogP (((['0', '1', '0', '1'] : List Char).count '1' : ℝ) /
              ((['0', '1', '0', '1'] : List Char).length : ℝ)) ∧
        App.entropy [] = 0 ∧
        App.entropy ['0', '0', '0', '0'] = 0 ∧
        App.entropy ['0', '1', '0', '1'] = 1) :=
  ⟨by decide, entropy_shannon ['0', '1', '0', '1'] (by decide)⟩

section ChiSquareProofs

open App

lemma count_zero_add_count_one (bits : List Char)
    (hbin : ∀ c ∈ bits, c = '0' ∨ c = '1') :
    bits.count '0' + bits.count '1' = bits.length := by
  induction bits with
  | nil => simp
  | cons c t ih =>
    have hc := hbin c (by simp)
    have ht : ∀ d ∈ t, d = '0' ∨ d = '1' := fun d hd => hbin d (by simp [hd])
    have iht := ih ht
    rcases hc with h | h <;> subst h <;>
      simp [List.count_cons] <;> omega

end ChiSquareProofs

/-- C7: chiSquare returns the pair 0.0 and 1.0 on the empty string; on
every non-empty balanced binary string (equal counts of the two symbols)
the two-category goodness-of-fit statistic against expected counts n over 2
is 0.0 and the p-value, given by the chi-square survival function with one
degree of freedom (any function sf with sf 0 = 1), is 1.0. -/
theorem chi_square_balanced (sf : ℝ → ℝ) (bits : List Char)
    (hsf : sf 0 = 1) (h : bits ≠ [])
    (hbin : ∀ c ∈ bits, c = '0' ∨ c = '1')
    (hbal : bits.count '0' = bits.count '1') :
    App.chi_square_01 sf bits = (0, 1) ∧ App.chi_square_01 sf [] = (0, 1) := by
  constructor
  · have hsum := count_zero_add_count_one bits hbin
    have hlen : bits.length ≠ 0 := by
      cases bits with
      | nil => exact absurd rfl h
      | cons c rest => simp
    unfold App.chi_square_01 App.frequency_test
    simp only [hlen, if_neg, not_false_iff]
    have htot : (bits.length : ℝ) ≠ 0 := by exact_mod_cast hlen
    have hz : (bits.count '0' : ℝ) - (bits.length : ℝ) / 2 = 0 := by
      have h2 : 2 * bits.count '0' = bits.length := by omega
      have h2r : 2 * (bits.count '0' : ℝ) = (bits.length : ℝ) := by exact_mod_cast h2
      linarith
    have ho : (bits.count '1' : ℝ) - (bits.length : ℝ) / 2 = 0 := by
      have h2 : 2 * bits.count '1' = bits.length := by omega
      have h2r : 2 * (bits.count '1' : ℝ) = (bits.length : ℝ) := by exact_mod_cast h2
      linarith
    rw [hz, ho]
    simp [hsf]
  · unfold App.chi_square_01 App.frequency_test
    simp

/-- C7 witness: a balanced 100-bit string (50 zeros then 50 ones) with a
concrete survival function taking 0 to 1. -/
theorem chi_square_balanced_witness :
    (fun x : ℝ => 1 - x) 0 = 1 ∧
      (App.chi_square_01 (fun x : ℝ => 1 - x)
            (List.replicate 50 '0' ++ List.replicate 50 '1') = (0, 1) ∧
        App.chi_square_01 (fun x : ℝ => 1 - x) [] = (0, 1)) :=
  ⟨by norm_num,
    chi_square_balanced (fun x : ℝ => 1 - x)
      (List.replicate 50 '0' ++ List.replicate 50 '1') (by norm_num) (by decide)
      (by decide) (by decide)⟩

section UuidProofs

open App

lemma bytesToHex_cons (b : Nat) (t : List Nat) :
    bytesToHex (b :: t) = hexChar (b / 16) :: hexChar (b % 16) :: bytesToHex t := rfl

lemma bytesToHex_length : ∀ (l : List Nat), (bytesToHex l).length = 2 * l.length := by
  intro l
  induction l with
  | nil => rfl
  | cons b t ih =>
    simp only [bytesToHex_cons, List.length_cons, ih]
    omega

lemma bytesToHex_getD_even : ∀ (l : List Nat) (i : Nat), i < l.length →
    (bytesToHex l).getD (2 * i) ' ' = hexChar (l.getD i 0 / 16) := by
  intro l
  induction l with
  | nil => intro i hi; simp at hi
  | cons b t ih =>
    intro i hi
    cases i with
    | zero => simp [bytesToHex_cons]
    | succ i =>
      have h2 : 2 * (i + 1) = 2 * i + 1 + 1 := by ring
      rw [bytesToHex_cons, h2, List.getD_cons_succ, List.getD_cons_succ, List.getD_cons_succ]
      exact ih i (by simpa using hi)

lemma setUuidVersionVariant_length (l : List Nat) :
    (setUuidVersionVariant l).length = l.length := by
  simp [setUuidVersionVariant]

lemma setUuidVersionVariant_getD_6 (l : List Nat) (h : 8 < l.length) :
    (setUuidVersionVariant l).getD 6 0 = (Nat.land (l.getD 6 0) 15).lor 64 := by
  unfold setUuidVersionVariant
  have h6 : 6 < l.length := by omega
  simp [List.getD_eq_getElem?_getD, List.getElem?_set_ne, List.getElem?_set_eq_of_lt, h6]

lemma setUuidVersionVariant_getD_8 (l : List Nat) (h : 8 < l.length) :
    (setUuidVersionVariant l).getD 8 0 = (Nat.land (l.getD 8 0) 63).lor 128 := by
  unfold setUuidVersionVariant
  simp [List.getD_eq_getElem?_getD, List.getElem?_set_ne, List.getElem?_set_eq_of_lt,
    List.length_set, h]

lemma getD_lt_of_forall (l : List Nat) (i : Nat) (hi : i < l.length)
    (hb : ∀ b ∈ l, b < 256) : l.getD i 0 < 256 := by
  have h : l.getD i 0 = l[i] := by
    simp [List.getD_eq_getElem?_getD, List.getElem?_eq_getElem hi]
  rw [h]
  exact hb _ (List.getElem_mem ..)

lemma version_nibble : ∀ b < 256, ((Nat.land b 15).lor 64) / 16 = 4 := by decide

lemma variant_nibble : ∀ b < 256,
    ((Nat.land b 63).lor 128) / 16 = 8 ∨ ((Nat.land b 63).lor 128) / 16 = 9 ∨
      ((Nat.land b 63).lor 128) / 16 = 10 ∨ ((Nat.land b 63).lor 128) / 16 = 11 := by
  decide

lemma ge_append_tail (A B : List Char) (n : Nat) (h : A.length ≤ n) :
    (A ++ B)[n]? = B[n - A.length]? :=
  List.getElem?_append_right h

lemma ge_append_head (A B : List Char) (n : Nat) (h : n < A.length) :
    (A ++ B)[n]? = A[n]? := by
  rw [List.getElem?_append]
  simp [h]

lemma ge_cons_of_pos (x : Char) (B : List Char) (n : Nat) (h : 0 < n) :
    (x :: B)[n]? = B[n - 1]? := by
  cases n with
  | zero => omega
  | succ n => simp

lemma ge_take_of_lt (l : List Char) (m n : Nat) (h : n < m) :
    (l.take m)[n]? = l[n]? := by
  rw [List.getElem?_take]
  simp [h]

lemma ge_drop_add (l : List Char) (m n : Nat) :
    (l.drop m)[n]? = l[m + n]? := by
  rw [List.getElem?_drop]

lemma uuidStr_hex_positions (l : List Nat) (h16 : l.length = 16) :
    (uuidStr l).getD 14 ' ' = (uuidHex l).getD 12 ' ' ∧
      (uuidStr l).getD 19 ' ' = (uuidHex l).getD 16 ' ' := by
  have hhex : (uuidHex l).length = 32 := by
    unfold uuidHex
    rw [bytesToHex_length, setUuidVersionVariant_length]
    simp [h16]
  unfold uuidStr
  have hA : ((uuidHex l).take 8).length = 8 := by simp [hhex]
  have hB : (((uuidHex l).drop 8).take 4).length = 4 := by simp [hhex]
  have hC : (((uuidHex l).drop 12).take 4).length = 4 := by simp [hhex]
  have hD : (((uuidHex l).drop 16).take 4).length = 4 := by simp [hhex]
  simp only [List.getD_eq_getElem?_getD]
  constructor
  · rw [ge_append_tail _ _ 14 (by rw [hA]; omega), hA]
    rw [ge_cons_of_pos _ _ _ (by omega)]
    rw [ge_append_tail _ _ _ (by rw [hB]; omega), hB]
    rw [ge_cons_of_pos _ _ _ (by omega)]
    rw [ge_append_head _ _ _ (by rw [hC]; omega)]
    rw [ge_take_of_lt _ _ _ (by omega), ge_drop_add]
  · rw [ge_append_tail _ _ 19 (by rw [hA]; omega), hA]
    rw [ge_cons_of_pos _ _ _ (by omega)]
    rw [ge_append_tail _ _ _ (by rw [hB]; omega), hB]
    rw [ge_cons_of_pos _ _ _ (by omega)]
    rw [ge_append_tail _ _ _ (by rw [hC]; omega), hC]
    rw [ge_cons_of_pos _ _ _ (by omega)]
    rw [ge_append_head _ _ _ (by rw [hD]; omega)]
    rw [ge_take_of_lt _ _ _ (by omega), ge_drop_add]

end UuidProofs

/-- C4: for every 16-byte input the UUID derivation overwrites the version
nibble of byte 6 to 4 and the top two bits of byte 8 to the 10 pattern, so
the 13th hex digit of the resulting UUID string (position 14 of the dashed
string) is the digit 4 and the 17th hex digit (position 19) is one of the
characters 8, 9, a, b, regardless of the input bytes. -/
theorem uuid_version_variant (l : List Nat) (h16 : l.length = 16)
    (hb : ∀ b ∈ l, b < 256) :
    (App.uuidHex l).getD 12 ' ' = '4' ∧
      (App.uuidHex l).getD 16 ' ' ∈ (['8', '9', 'a', 'b'] : List Char) ∧
      (App.uuidStr l).getD 14 ' ' = '4' ∧
      (App.uuidStr l).getD 19 ' ' ∈ (['8', '9', 'a', 'b'] : List Char) := by
  have htake : l.take 16 = l := by rw [← h16, List.take_length]
  have hsetlen : (App.setUuidVersionVariant l).length = 16 := by
    rw [setUuidVersionVariant_length, h16]
  have hd12 : (App.uuidHex l).getD 12 ' ' =
      App.hexChar ((App.setUuidVersionVariant l).getD 6 0 / 16) := by
    unfold App.uuidHex
    rw [htake]
    have := bytesToHex_getD_even (App.setUuidVersionVariant l) 6 (by omega)
    simpa using this
  have hd16 : (App.uuidHex l).getD 16 ' ' =
      App.hexChar ((App.setUuidVersionVariant l).getD 8 0 / 16) := by
    unfold App.uuidHex
    rw [htake]
    have := bytesToHex_getD_even (App.setUuidVersionVariant l) 8 (by omega)
    simpa using this
  have hb6 : l.getD 6 0 < 256 := getD_lt_of_forall l 6 (by omega) hb
  have hb8 : l.getD 8 0 < 256 := getD_lt_of_forall l 8 (by omega) hb
  have h4 : (App.uuidHex l).getD 12 ' ' = '4' := by
    rw [hd12, setUuidVersionVariant_getD_6 l (by omega),
      version_nibble (l.getD 6 0) hb6]
    decide
  have h17 : (App.uuidHex l).getD 16 ' ' ∈ (['8', '9', 'a', 'b'] : List Char) := by
    rw [hd16, setUuidVersionVariant_getD_8 l (by omega)]
    rcases variant_nibble (l.getD 8 0) hb8 with h | h | h | h <;> rw [h] <;> decide
  obtain ⟨hp14, hp19⟩ := uuidStr_hex_positions l h16
  exact ⟨h4, h17, by rw [hp14]; exact h4, by rw [hp19]; exact h17⟩

/-- C4 witness: the all-zero 16-byte input. -/
theorem uuid_version_variant_witness :
    (List.replicate 16 0).length = 16 ∧
      ((App.uuidHex (List.replicate 16 0)).getD 12 ' ' = '4' ∧
        (App.uuidHex (List.replicate 16 0)).getD 16 ' ' ∈ (['8', '9', 'a', 'b'] : List Char) ∧
        (App.uuidStr (List.replicate 16 0)).getD 14 ' ' = '4' ∧
        (App.uuidStr (List.replicate 16 0)).getD 19 ' ' ∈ (['8', '9', 'a', 'b'] : List Char)) :=
  ⟨by decide, uuid_version_variant (List.replicate 16 0) (by decide) (by decide)⟩
